import Mathlib

set_option maxRecDepth 8192
set_option synthInstance.maxHeartbeats 1000000
set_option synthInstance.maxSize 2048

/-
Verification of the steganographic bit-packing codec (src/binary.rs).

Byte streams are modelled as lists of naturals, each element standing for one
u8 (so meaningful values are < 256).  A reader is a list consumed from the
front; read_exact on a list-backed reader either returns the requested prefix
or fails with an unexpected-EOF error, exactly as std read_exact behaves on
an in-memory cursor.  Fallible operations return Except.
-/

/-- Models std io errors as they can arise in this codec: the only io error a
list-backed reader produces is an unexpected end of file. -/
inductive IoError where
  | unexpectedEof
deriving DecidableEq, Repr

/-- The crate error type from src/error.rs: a wrong bit count, or a wrapped
lower-level error (here always an io error). -/
inductive Error where
  | WrongBits (v : Nat)
  | Wrapped (e : IoError)
deriving DecidableEq, Repr

/-- The Bits enum from src/binary.rs: number of least significant bits
replaced per carrier byte. -/
inductive Bits where
  | One
  | Two
  | Four
deriving DecidableEq, Repr

/-- The numeric value of a Bits variant (the Rust `as u8` / `as usize` cast of
the enum, whose discriminants are 1, 2, 4). -/
def Bits.toNat : Bits → Nat
  | .One => 1
  | .Two => 2
  | .Four => 4

/-- Bits::mask — `(1 << *self as u8) - 1`. -/
def Bits.mask (b : Bits) : Nat := (1 <<< b.toNat) - 1

/-- Bits::ratio — `8 / *self as usize`. -/
def Bits.ratio (b : Bits) : Nat := 8 / b.toNat

/-- TryFrom<u8> for Bits — the match on the raw value 1 / 2 / 4 with a
WrongBits error in the fallthrough arm. -/
def Bits.tryFrom (v : Nat) : Except Error Bits :=
  if v = 1 then .ok .One
  else if v = 2 then .ok .Two
  else if v = 4 then .ok .Four
  else .error (.WrongBits v)

instance {ε α : Type} [DecidableEq ε] [DecidableEq α] : DecidableEq (Except ε α) :=
  fun a b =>
    match a, b with
    | .error e, .error f => decidable_of_iff (e = f) (by simp)
    | .error _, .ok _ => isFalse (by simp)
    | .ok _, .error _ => isFalse (by simp)
    | .ok x, .ok y => decidable_of_iff (x = y) (by simp)

/-- read_exact of `n` bytes on a list-backed reader: returns the prefix and
the remainder, or fails with UnexpectedEof when fewer than `n` bytes remain. -/
def readExact (n : Nat) (s : List Nat) : Except IoError (List Nat × List Nat) :=
  if n ≤ s.length then .ok (s.take n, s.drop n) else .error .unexpectedEof

/-- The shift sequence `(0..8).step_by(bits as usize).rev()` used by both the
reader and the writer. -/
def Bits.shifts (b : Bits) : List Nat :=
  ((List.range b.ratio).map (fun i => b.toNat * i)).reverse

/-- The body of SteganographReader::read for one output byte: zip the carrier
chunk with the shifts, mask each byte, shift it into place and or-fold. -/
def decodeByte (b : Bits) (chunk : List Nat) : Nat :=
  ((chunk.zip b.shifts).map (fun p => (p.1 &&& b.mask) <<< p.2)).foldl
    (fun acc x => acc ||| x) 0

/-- The body of SteganographWriter::write for one payload byte:
`byte & !mask | (payload_byte >> shift) & mask` over the chunk zipped with
the shifts (`!mask` on a u8 is `255 ^^^ mask`). -/
def encodeChunk (b : Bits) (payloadByte : Nat) (chunk : List Nat) : List Nat :=
  (chunk.zip b.shifts).map
    (fun p => p.1 &&& (255 ^^^ b.mask) ||| (payloadByte >>> p.2) &&& b.mask)

/-- SteganographWriter::write: for each payload byte read_exact a ratio-sized
template chunk from the carrier and emit the encoded chunk.  Returns the
destination bytes written and the remaining carrier. -/
def stegWrite (b : Bits) (payload carrier : List Nat) :
    Except IoError (List Nat × List Nat) :=
  match payload with
  | [] => .ok ([], carrier)
  | pb :: rest =>
    match readExact b.ratio carrier with
    | .error e => .error e
    | .ok (chunk, carrier1) =>
      match stegWrite b rest carrier1 with
      | .error e => .error e
      | .ok (out, carrier2) => .ok (encodeChunk b pb chunk ++ out, carrier2)

/-- SteganographReader::read into a buffer of `n` bytes: for each output byte
read_exact a ratio-sized chunk from the source and decode it.  Returns the
decoded bytes and the remaining source. -/
def stegRead (b : Bits) (n : Nat) (input : List Nat) :
    Except IoError (List Nat × List Nat) :=
  match n with
  | 0 => .ok ([], input)
  | m + 1 =>
    match readExact b.ratio input with
    | .error e => .error e
    | .ok (chunk, input1) =>
      match stegRead b m input1 with
      | .error e => .error e
      | .ok (out, input2) => .ok (decodeByte b chunk :: out, input2)

/-- The four big-endian bytes of a u32 value, as written by
write_u32::<BigEndian>. -/
def u32BeBytes (n : Nat) : List Nat :=
  [n / 2 ^ 24 % 256, n / 2 ^ 16 % 256, n / 2 ^ 8 % 256, n % 256]

/-- BigEndian::read_u32: reassemble a u32 from four bytes. -/
def be32 (bs : List Nat) : Nat :=
  match bs with
  | [b0, b1, b2, b3] => (b0 <<< 24) ||| (b1 <<< 16) ||| (b2 <<< 8) ||| b3
  | _ => 0

/-- hide_bytes from src/binary.rs: write the payload length as a u32 (the
`payload.len() as u32` cast truncates modulo 2^32) followed by the payload,
both through the steganograph writer over the carrier. -/
def hide_bytes (payload carrier : List Nat) (bits : Bits) :
    Except Error (List Nat) :=
  match stegWrite bits (u32BeBytes (payload.length % 2 ^ 32)) carrier with
  | .error e => .error (.Wrapped e)
  | .ok (out1, carrier1) =>
    match stegWrite bits payload carrier1 with
    | .error e => .error (.Wrapped e)
    | .ok (out2, _) => .ok (out1 ++ out2)

/-- The capacity argument of the Vec::with_capacity call on line 42 of
src/binary.rs, exactly as written there: `4 + payload.len() * bits.ratio()`. -/
def hideBytesCapacity (payloadLen : Nat) (bits : Bits) : Nat :=
  4 + payloadLen * bits.ratio

/-- reveal_bytes, keeping the final reader position: read a 4-byte big-endian
size through the steganograph reader, then that many payload bytes; returns
the payload together with the unconsumed input. -/
def revealCore (input : List Nat) (bits : Bits) :
    Except IoError (List Nat × List Nat) :=
  match stegRead bits 4 input with
  | .error e => .error e
  | .ok (hdr, input1) =>
    match stegRead bits (be32 hdr) input1 with
    | .error e => .error e
    | .ok (payload, input2) => .ok (payload, input2)

/-- reveal_bytes from src/binary.rs. -/
def reveal_bytes (input : List Nat) (bits : Bits) : Except Error (List Nat) :=
  match revealCore input bits with
  | .error e => .error (.Wrapped e)
  | .ok (payload, _) => .ok payload

/-- The size the decoder extracts from the 4-byte header of its input, before
reading that many payload bytes (the `size` local of reveal_bytes); zero when
the header itself cannot be read. -/
def revealSize (input : List Nat) (bits : Bits) : Nat :=
  match stegRead bits 4 input with
  | .ok (hdr, _) => be32 hdr
  | .error _ => 0

theorem Bits.ratio_one : Bits.One.ratio = 8 := rfl

theorem Bits.ratio_two : Bits.Two.ratio = 4 := rfl

theorem Bits.ratio_four : Bits.Four.ratio = 2 := rfl

theorem Bits.mask_one : Bits.One.mask = 1 := rfl

theorem Bits.mask_two : Bits.Two.mask = 3 := rfl

theorem Bits.mask_four : Bits.Four.mask = 15 := rfl

theorem Bits.shifts_one : Bits.One.shifts = [7, 6, 5, 4, 3, 2, 1, 0] := rfl

theorem Bits.shifts_two : Bits.Two.shifts = [6, 4, 2, 0] := rfl

theorem Bits.shifts_four : Bits.Four.shifts = [4, 0] := rfl

theorem Bits.shifts_length (b : Bits) : b.shifts.length = b.ratio := by
  cases b <;> rfl

theorem Bits.mask_lt (b : Bits) : b.mask < 256 := by
  cases b <;> decide

theorem xor255_and_self {m : Nat} (h : m < 256) : (255 ^^^ m) &&& m = 0 := by
  revert h
  have : ∀ m, m < 256 → (255 ^^^ m) &&& m = 0 := by decide
  exact this m

theorem and_self_xor255 {m : Nat} (h : m < 256) : m &&& (255 ^^^ m) = 0 := by
  rw [Nat.and_comm]
  exact xor255_and_self h

/-- Replacing the low masked bits and then reading them back through the mask
recovers exactly the inserted bits. -/
theorem and_insert_mask (b : Bits) (t y : Nat) :
    (t &&& (255 ^^^ b.mask) ||| y &&& b.mask) &&& b.mask = y &&& b.mask := by
  rw [Nat.and_distrib_right, Nat.and_assoc, Nat.and_assoc,
    xor255_and_self b.mask_lt, Nat.and_self, Nat.and_zero, Nat.zero_or]

/-- Bits above the mask of an encoded byte agree with the template byte. -/
theorem and_insert_notmask (b : Bits) (t y : Nat) :
    (t &&& (255 ^^^ b.mask) ||| y &&& b.mask) &&& (255 ^^^ b.mask) =
      t &&& (255 ^^^ b.mask) := by
  rw [Nat.and_distrib_right, Nat.and_assoc, Nat.and_assoc,
    and_self_xor255 b.mask_lt, Nat.and_self, Nat.and_zero, Nat.or_zero]

theorem u32BeBytes_length (n : Nat) : (u32BeBytes n).length = 4 := rfl

theorem u32BeBytes_mem_lt (n : Nat) : ∀ x ∈ u32BeBytes n, x < 256 := by
  intro x hx
  simp only [u32BeBytes, List.mem_cons, List.not_mem_nil, or_false] at hx
  rcases hx with h | h | h | h <;> subst h <;> exact Nat.mod_lt _ (by norm_num)

/-- Or-ing the four shifted byte fields of a big-endian u32 is plain
arithmetic: the fields occupy disjoint bit ranges. -/
theorem be32_fields (a b c d : Nat) (hb : b < 256) (hc : c < 256)
    (hd : d < 256) :
    (a <<< 24) ||| (b <<< 16) ||| (c <<< 8) ||| d =
      ((a * 256 + b) * 256 + c) * 256 + d := by
  have e1 : (a <<< 24) ||| (b <<< 16) = a * 2 ^ 24 + b * 2 ^ 16 := by
    calc (a <<< 24) ||| (b <<< 16)
        = 2 ^ 24 * a ||| b * 2 ^ 16 := by
          rw [Nat.shiftLeft_eq, Nat.shiftLeft_eq, Nat.mul_comm]
      _ = 2 ^ 24 * a + b * 2 ^ 16 := (Nat.mul_add_lt_is_or (by omega) _).symm
      _ = a * 2 ^ 24 + b * 2 ^ 16 := by ring
  have e2 : (a * 2 ^ 24 + b * 2 ^ 16) ||| (c <<< 8) =
      a * 2 ^ 24 + b * 2 ^ 16 + c * 2 ^ 8 := by
    calc (a * 2 ^ 24 + b * 2 ^ 16) ||| (c <<< 8)
        = 2 ^ 16 * (a * 2 ^ 8 + b) ||| c * 2 ^ 8 := by
          rw [Nat.shiftLeft_eq]; ring_nf
      _ = 2 ^ 16 * (a * 2 ^ 8 + b) + c * 2 ^ 8 :=
          (Nat.mul_add_lt_is_or (by omega) _).symm
      _ = a * 2 ^ 24 + b * 2 ^ 16 + c * 2 ^ 8 := by ring
  have e3 : (a * 2 ^ 24 + b * 2 ^ 16 + c * 2 ^ 8) ||| d =
      a * 2 ^ 24 + b * 2 ^ 16 + c * 2 ^ 8 + d := by
    calc (a * 2 ^ 24 + b * 2 ^ 16 + c * 2 ^ 8) ||| d
        = 2 ^ 8 * (a * 2 ^ 16 + b * 2 ^ 8 + c) ||| d := by ring_nf
      _ = 2 ^ 8 * (a * 2 ^ 16 + b * 2 ^ 8 + c) + d :=
          (Nat.mul_add_lt_is_or (by omega) _).symm
      _ = a * 2 ^ 24 + b * 2 ^ 16 + c * 2 ^ 8 + d := by ring
  rw [e1, e2, e3]
  ring

/-- Reading back the four big-endian bytes of a u32 recovers the value. -/
theorem be32_u32BeBytes (n : Nat) (h : n < 2 ^ 32) :
    be32 (u32BeBytes n) = n := by
  simp only [be32, u32BeBytes]
  rw [be32_fields _ _ _ _ (Nat.mod_lt _ (by norm_num))
    (Nat.mod_lt _ (by norm_num)) (Nat.mod_lt _ (by norm_num))]
  omega

theorem exists_len2 {l : List Nat} (h : l.length = 2) :
    ∃ a b, l = [a, b] := by
  rcases l with _ | ⟨a, l⟩
  · simp at h
  rcases l with _ | ⟨b, l⟩
  · simp at h
  rcases l with _ | ⟨c, l⟩
  · exact ⟨a, b, rfl⟩
  · simp at h

theorem exists_len4 {l : List Nat} (h : l.length = 4) :
    ∃ a b c d, l = [a, b, c, d] := by
  rcases l with _ | ⟨a, l⟩
  · simp at h
  rcases l with _ | ⟨b, l⟩
  · simp at h
  rcases l with _ | ⟨c, l⟩
  · simp at h
  rcases l with _ | ⟨d, l⟩
  · simp at h
  rcases l with _ | ⟨e, l⟩
  · exact ⟨a, b, c, d, rfl⟩
  · simp at h

theorem exists_len8 {l : List Nat} (h : l.length = 8) :
    ∃ a b c d e f g k, l = [a, b, c, d, e, f, g, k] := by
  rcases l with _ | ⟨a, l⟩
  · simp at h
  rcases l with _ | ⟨b, l⟩
  · simp at h
  rcases l with _ | ⟨c, l⟩
  · simp at h
  rcases l with _ | ⟨d, l⟩
  · simp at h
  rcases l with _ | ⟨e, l⟩
  · simp at h
  rcases l with _ | ⟨f, l⟩
  · simp at h
  rcases l with _ | ⟨g, l⟩
  · simp at h
  rcases l with _ | ⟨k, l⟩
  · simp at h
  rcases l with _ | ⟨m, l⟩
  · exact ⟨a, b, c, d, e, f, g, k, rfl⟩
  · simp at h

/-- Pushing an encoded chunk through the decoder mask step leaves only the
inserted payload chunks, template bytes cancel. -/
theorem enc_dec_zip (b : Bits) (pb : Nat) :
    ∀ (ts ss : List Nat), ts.length = ss.length →
      (((ts.zip ss).map
          (fun p => p.1 &&& (255 ^^^ b.mask) ||| (pb >>> p.2) &&& b.mask)).zip
        ss).map (fun p => (p.1 &&& b.mask) <<< p.2) =
      ss.map (fun s => ((pb >>> s) &&& b.mask) <<< s) := by
  intro ts
  induction ts with
  | nil =>
    intro ss h
    obtain rfl : ss = [] := List.length_eq_zero.mp h.symm
    rfl
  | cons t ts ih =>
    intro ss h
    rcases ss with _ | ⟨s, ss⟩
    · simp at h
    simp only [List.zip_cons_cons, List.map_cons, List.cons.injEq]
    refine ⟨by rw [and_insert_mask], ih ss (by simpa using h)⟩

/-- Decoding an encoded chunk recovers the payload byte. -/
theorem decode_encode_chunk (b : Bits) (pb : Nat) (hpb : pb < 256)
    (chunk : List Nat) (hlen : chunk.length = b.ratio) :
    decodeByte b (encodeChunk b pb chunk) = pb := by
  unfold decodeByte encodeChunk
  rw [enc_dec_zip b pb chunk b.shifts (by rw [hlen, Bits.shifts_length])]
  cases b <;>
    simp only [Bits.shifts_one, Bits.shifts_two, Bits.shifts_four,
      List.map_cons, List.map_nil, List.foldl_cons, List.foldl_nil,
      Nat.zero_or] <;>
    revert pb <;> decide

/-- The or-fold of the decoder equals the big-endian weighted sum of the
masked chunks: the contributions occupy disjoint bit ranges. -/
theorem decodeByte_eq_sum (b : Bits) (chunk : List Nat)
    (hlen : chunk.length = b.ratio) :
    decodeByte b chunk =
      ((chunk.zip (List.range b.ratio)).map
        (fun p => (p.1 &&& b.mask) <<< (8 - b.toNat * (p.2 + 1)))).sum := by
  cases b
  case Four =>
    obtain ⟨t0, t1, rfl⟩ := exists_len2 hlen
    simp only [decodeByte, Bits.shifts_four, Bits.mask_four, Bits.ratio_four,
      Bits.toNat]
    rw [show List.range 2 = [0, 1] from rfl]
    simp only [List.zip_cons_cons, List.zip_nil_right, List.map_cons,
      List.map_nil, List.foldl_cons, List.foldl_nil, List.sum_cons,
      List.sum_nil, Nat.zero_or, Nat.add_zero]
    norm_num
    set x0 := t0 &&& 15 with hx0
    set x1 := t1 &&& 15 with hx1
    have hb0 : x0 ≤ 15 := hx0 ▸ Nat.and_le_right
    have hb1 : x1 ≤ 15 := hx1 ▸ Nat.and_le_right
    clear_value x0 x1
    clear hx0 hx1
    revert x0 hb0 x1 hb1
    decide
  case Two =>
    obtain ⟨t0, t1, t2, t3, rfl⟩ := exists_len4 hlen
    simp only [decodeByte, Bits.shifts_two, Bits.mask_two, Bits.ratio_two,
      Bits.toNat]
    rw [show List.range 4 = [0, 1, 2, 3] from rfl]
    simp only [List.zip_cons_cons, List.zip_nil_right, List.map_cons,
      List.map_nil, List.foldl_cons, List.foldl_nil, List.sum_cons,
      List.sum_nil, Nat.zero_or, Nat.add_zero]
    norm_num
    set x0 := t0 &&& 3 with hx0
    set x1 := t1 &&& 3 with hx1
    set x2 := t2 &&& 3 with hx2
    set x3 := t3 &&& 3 with hx3
    have hb0 : x0 ≤ 3 := hx0 ▸ Nat.and_le_right
    have hb1 : x1 ≤ 3 := hx1 ▸ Nat.and_le_right
    have hb2 : x2 ≤ 3 := hx2 ▸ Nat.and_le_right
    have hb3 : x3 ≤ 3 := hx3 ▸ Nat.and_le_right
    clear_value x0 x1 x2 x3
    clear hx0 hx1 hx2 hx3
    revert x0 hb0 x1 hb1 x2 hb2 x3 hb3
    decide
  case One =>
    obtain ⟨t0, t1, t2, t3, t4, t5, t6, t7, rfl⟩ := exists_len8 hlen
    simp only [decodeByte, Bits.shifts_one, Bits.mask_one, Bits.ratio_one,
      Bits.toNat]
    rw [show List.range 8 = [0, 1, 2, 3, 4, 5, 6, 7] from rfl]
    simp only [List.zip_cons_cons, List.zip_nil_right, List.map_cons,
      List.map_nil, List.foldl_cons, List.foldl_nil, List.sum_cons,
      List.sum_nil, Nat.zero_or, Nat.add_zero]
    norm_num
    set x0 := t0 % 2 with hx0
    set x1 := t1 % 2 with hx1
    set x2 := t2 % 2 with hx2
    set x3 := t3 % 2 with hx3
    set x4 := t4 % 2 with hx4
    set x5 := t5 % 2 with hx5
    set x6 := t6 % 2 with hx6
    set x7 := t7 % 2 with hx7
    have hb0 : x0 ≤ 1 := hx0 ▸ (by omega : t0 % 2 ≤ 1)
    have hb1 : x1 ≤ 1 := hx1 ▸ (by omega : t1 % 2 ≤ 1)
    have hb2 : x2 ≤ 1 := hx2 ▸ (by omega : t2 % 2 ≤ 1)
    have hb3 : x3 ≤ 1 := hx3 ▸ (by omega : t3 % 2 ≤ 1)
    have hb4 : x4 ≤ 1 := hx4 ▸ (by omega : t4 % 2 ≤ 1)
    have hb5 : x5 ≤ 1 := hx5 ▸ (by omega : t5 % 2 ≤ 1)
    have hb6 : x6 ≤ 1 := hx6 ▸ (by omega : t6 % 2 ≤ 1)
    have hb7 : x7 ≤ 1 := hx7 ▸ (by omega : t7 % 2 ≤ 1)
    clear_value x0 x1 x2 x3 x4 x5 x6 x7
    clear hx0 hx1 hx2 hx3 hx4 hx5 hx6 hx7
    revert x0 hb0 x1 hb1 x2 hb2 x3 hb3 x4 hb4 x5 hb5 x6 hb6 x7 hb7
    decide

theorem readExact_ok {n : Nat} {s : List Nat} (h : n ≤ s.length) :
    readExact n s = .ok (s.take n, s.drop n) := by
  rw [readExact, if_pos h]

theorem readExact_err {n : Nat} {s : List Nat} (h : s.length < n) :
    readExact n s = .error .unexpectedEof := by
  rw [readExact, if_neg (by omega)]

theorem readExact_append {n : Nat} {l1 l2 : List Nat} (h : l1.length = n) :
    readExact n (l1 ++ l2) = .ok (l1, l2) := by
  subst h
  rw [readExact_ok (by simp), List.take_left, List.drop_left]

theorem encodeChunk_length (b : Bits) (pb : Nat) (chunk : List Nat)
    (h : chunk.length = b.ratio) : (encodeChunk b pb chunk).length = b.ratio := by
  simp [encodeChunk, h, Bits.shifts_length]

/-- A successful steganograph write consumed exactly ratio carrier bytes per
payload byte and produced exactly that many output bytes. -/
theorem stegWrite_ok_struct (b : Bits) :
    ∀ (payload carrier out rest : List Nat),
      stegWrite b payload carrier = .ok (out, rest) →
      out.length = payload.length * b.ratio ∧
        rest = carrier.drop (payload.length * b.ratio) ∧
        payload.length * b.ratio ≤ carrier.length := by
  intro payload
  induction payload with
  | nil =>
    intro carrier out rest h
    simp only [stegWrite, Except.ok.injEq, Prod.mk.injEq] at h
    obtain ⟨rfl, rfl⟩ := h
    simp
  | cons pb ps ih =>
    intro carrier out rest h
    by_cases hr : b.ratio ≤ carrier.length
    · simp only [stegWrite, readExact_ok hr] at h
      cases hs : stegWrite b ps (carrier.drop b.ratio) with
      | error e => rw [hs] at h; cases h
      | ok pr =>
        obtain ⟨out1, rest1⟩ := pr
        rw [hs] at h
        simp only [Except.ok.injEq, Prod.mk.injEq] at h
        obtain ⟨rfl, rfl⟩ := h
        obtain ⟨hlen1, hrest1, hle1⟩ := ih _ _ _ hs
        have hcl : (carrier.take b.ratio).length = b.ratio :=
          List.length_take_of_le hr
        have hmul : (pb :: ps).length * b.ratio =
            ps.length * b.ratio + b.ratio := by
          rw [List.length_cons]; ring
        refine ⟨?_, ?_, ?_⟩
        · rw [List.length_append, encodeChunk_length b pb _ hcl, hlen1, hmul]
          omega
        · rw [hrest1, List.drop_drop, hmul]
          congr 1
          omega
        · rw [List.length_drop] at hle1
          rw [hmul]
          omega
    · rw [stegWrite, readExact_err (by omega)] at h
      cases h

/-- A write fails with UnexpectedEof when the carrier is too short. -/
theorem stegWrite_err (b : Bits) :
    ∀ (payload carrier : List Nat),
      carrier.length < payload.length * b.ratio →
      stegWrite b payload carrier = .error .unexpectedEof := by
  intro payload
  induction payload with
  | nil => intro carrier h; simp at h
  | cons pb ps ih =>
    intro carrier h
    have hmul : (pb :: ps).length * b.ratio =
        ps.length * b.ratio + b.ratio := by
      rw [List.length_cons]; ring
    rw [hmul] at h
    by_cases hr : b.ratio ≤ carrier.length
    · have hlt : (carrier.drop b.ratio).length < ps.length * b.ratio := by
        rw [List.length_drop]
        omega
      simp only [stegWrite, readExact_ok hr, ih _ hlt]
    · simp only [stegWrite, readExact_err (show carrier.length < b.ratio by omega)]

/-- A write succeeds whenever the carrier holds ratio bytes per payload
byte. -/
theorem stegWrite_ok (b : Bits) :
    ∀ (payload carrier : List Nat),
      payload.length * b.ratio ≤ carrier.length →
      ∃ out, stegWrite b payload carrier =
        .ok (out, carrier.drop (payload.length * b.ratio)) := by
  intro payload
  induction payload with
  | nil => intro carrier h; exact ⟨[], by simp [stegWrite]⟩
  | cons pb ps ih =>
    intro carrier h
    have hmul : (pb :: ps).length * b.ratio =
        ps.length * b.ratio + b.ratio := by
      rw [List.length_cons]; ring
    rw [hmul] at h
    have hr : b.ratio ≤ carrier.length := by omega
    have hle : ps.length * b.ratio ≤ (carrier.drop b.ratio).length := by
      rw [List.length_drop]
      omega
    obtain ⟨out1, hout1⟩ := ih _ hle
    refine ⟨encodeChunk b pb (carrier.take b.ratio) ++ out1, ?_⟩
    simp only [stegWrite, readExact_ok hr, hout1]
    rw [List.drop_drop, hmul,
      show b.ratio + ps.length * b.ratio = ps.length * b.ratio + b.ratio by omega]

/-- Reading back what a successful write produced recovers the payload and
leaves any appended extra input untouched. -/
theorem stegRead_stegWrite (b : Bits) :
    ∀ (payload carrier out rest extra : List Nat),
      (∀ x ∈ payload, x < 256) →
      stegWrite b payload carrier = .ok (out, rest) →
      stegRead b payload.length (out ++ extra) = .ok (payload, extra) := by
  intro payload
  induction payload with
  | nil =>
    intro carrier out rest extra _ h
    simp only [stegWrite, Except.ok.injEq, Prod.mk.injEq] at h
    obtain ⟨rfl, rfl⟩ := h
    simp [stegRead]
  | cons pb ps ih =>
    intro carrier out rest extra hb h
    by_cases hr : b.ratio ≤ carrier.length
    · simp only [stegWrite, readExact_ok hr] at h
      cases hs : stegWrite b ps (carrier.drop b.ratio) with
      | error e => rw [hs] at h; cases h
      | ok pr =>
        obtain ⟨out1, rest1⟩ := pr
        rw [hs] at h
        simp only [Except.ok.injEq, Prod.mk.injEq] at h
        obtain ⟨rfl, rfl⟩ := h
        have hcl : (carrier.take b.ratio).length = b.ratio :=
          List.length_take_of_le hr
        have hel : (encodeChunk b pb (carrier.take b.ratio)).length = b.ratio :=
          encodeChunk_length b pb _ hcl
        have hinp :
            (encodeChunk b pb (carrier.take b.ratio) ++ out1) ++ extra =
              encodeChunk b pb (carrier.take b.ratio) ++ (out1 ++ extra) := by
          simp [List.append_assoc]
        rw [List.length_cons, stegRead, hinp]
        simp only [readExact_append hel,
          ih _ _ _ extra (fun x hx => hb x (List.mem_cons_of_mem _ hx)) hs,
          decode_encode_chunk b pb (hb pb (List.mem_cons_self _ _)) _ hcl]
    · rw [stegWrite, readExact_err (by omega)] at h
      cases h

/-- A successful steganograph read produced exactly `n` bytes and consumed
exactly `n * ratio` input bytes. -/
theorem stegRead_ok_struct (b : Bits) :
    ∀ (n : Nat) (input out rest : List Nat),
      stegRead b n input = .ok (out, rest) →
      out.length = n ∧ rest = input.drop (n * b.ratio) ∧
        n * b.ratio ≤ input.length := by
  intro n
  induction n with
  | zero =>
    intro input out rest h
    simp only [stegRead, Except.ok.injEq, Prod.mk.injEq] at h
    obtain ⟨rfl, rfl⟩ := h
    simp
  | succ m ih =>
    intro input out rest h
    by_cases hr : b.ratio ≤ input.length
    · simp only [stegRead, readExact_ok hr] at h
      cases hs : stegRead b m (input.drop b.ratio) with
      | error e => rw [hs] at h; cases h
      | ok pr =>
        obtain ⟨out1, rest1⟩ := pr
        rw [hs] at h
        simp only [Except.ok.injEq, Prod.mk.injEq] at h
        obtain ⟨rfl, rfl⟩ := h
        obtain ⟨hlen1, hrest1, hle1⟩ := ih _ _ _ hs
        have hmul : (m + 1) * b.ratio = m * b.ratio + b.ratio := by ring
        refine ⟨by simp [hlen1], ?_, ?_⟩
        · rw [hrest1, List.drop_drop, hmul]
          congr 1
          omega
        · rw [List.length_drop] at hle1
          rw [hmul]
          omega
    · rw [stegRead, readExact_err (by omega)] at h
      cases h

/-- A read fails with UnexpectedEof when the input is too short. -/
theorem stegRead_err (b : Bits) :
    ∀ (n : Nat) (input : List Nat),
      input.length < n * b.ratio →
      stegRead b n input = .error .unexpectedEof := by
  intro n
  induction n with
  | zero =>
    intro input h
    rw [Nat.zero_mul] at h
    exact absurd h (Nat.not_lt_zero _)
  | succ m ih =>
    intro input h
    have hmul : (m + 1) * b.ratio = m * b.ratio + b.ratio := by ring
    rw [hmul] at h
    by_cases hr : b.ratio ≤ input.length
    · have hlt : (input.drop b.ratio).length < m * b.ratio := by
        rw [List.length_drop]; omega
      simp only [stegRead, readExact_ok hr, ih _ hlt]
    · simp only [stegRead,
        readExact_err (show input.length < b.ratio by omega)]

/-- Writing a concatenation is writing the parts in sequence over the same
carrier cursor, concatenating the outputs. -/
theorem stegWrite_append (b : Bits) :
    ∀ (A B carrier : List Nat),
      stegWrite b (A ++ B) carrier =
        match stegWrite b A carrier with
        | .error e => .error e
        | .ok (o1, c1) =>
          match stegWrite b B c1 with
          | .error e => .error e
          | .ok (o2, c2) => .ok (o1 ++ o2, c2) := by
  intro A
  induction A with
  | nil =>
    intro B carrier
    cases h : stegWrite b B carrier with
    | error e => simp [stegWrite, h]
    | ok pr => simp [stegWrite, h]
  | cons a A ih =>
    intro B carrier
    cases hr : readExact b.ratio carrier with
    | error e => simp [stegWrite, hr]
    | ok pr =>
      obtain ⟨chunk, c1⟩ := pr
      simp only [List.cons_append, stegWrite, hr]
      rw [show A.append B = A ++ B from rfl, ih B c1]
      cases h1 : stegWrite b A c1 with
      | error e => simp [h1]
      | ok pr1 =>
        obtain ⟨o1, c2⟩ := pr1
        simp only [h1]
        cases h2 : stegWrite b B c2 with
        | error e => simp [h2]
        | ok pr2 =>
          obtain ⟨o2, c3⟩ := pr2
          simp [h2, List.append_assoc]

/-- A read succeeds whenever the input holds ratio bytes per requested
byte. -/
theorem stegRead_ok (b : Bits) :
    ∀ (n : Nat) (input : List Nat),
      n * b.ratio ≤ input.length →
      ∃ out, stegRead b n input = .ok (out, input.drop (n * b.ratio)) := by
  intro n
  induction n with
  | zero => intro input h; exact ⟨[], by simp [stegRead]⟩
  | succ m ih =>
    intro input h
    have hmul : (m + 1) * b.ratio = m * b.ratio + b.ratio := by ring
    rw [hmul] at h
    have hr : b.ratio ≤ input.length := by omega
    have hle : m * b.ratio ≤ (input.drop b.ratio).length := by
      rw [List.length_drop]
      omega
    obtain ⟨out1, hout1⟩ := ih _ hle
    refine ⟨decodeByte b (input.take b.ratio) :: out1, ?_⟩
    simp only [stegRead, readExact_ok hr, hout1]
    rw [List.drop_drop, hmul,
      show b.ratio + m * b.ratio = m * b.ratio + b.ratio by omega]

theorem getD_take {l : List Nat} {n i : Nat} (h : i < n) :
    (l.take n).getD i 0 = l.getD i 0 := by
  rw [List.getD_eq_getElem?_getD, List.getD_eq_getElem?_getD,
    List.getElem?_take_of_lt h]

/-- The general hide/reveal composition: for any payload of u8 values and a
sufficient carrier, revealing the hidden bytes returns the first
len mod 2^32 payload bytes (the length prefix is the payload length cast to
u32). -/
theorem hide_reveal_take (bits : Bits) (payload carrier : List Nat)
    (hbytes : ∀ x ∈ payload, x < 256)
    (hcar : (4 + payload.length) * bits.ratio ≤ carrier.length) :
    (hide_bytes payload carrier bits).bind
      (fun out => reveal_bytes out bits) =
      .ok (payload.take (payload.length % 2 ^ 32)) := by
  have hmodlt : payload.length % 2 ^ 32 < 2 ^ 32 := Nat.mod_lt _ (by norm_num)
  have hnle : payload.length % 2 ^ 32 ≤ payload.length := Nat.mod_le _ _
  have hmul : (4 + payload.length) * bits.ratio =
      4 * bits.ratio + payload.length * bits.ratio := by ring
  rw [hmul] at hcar
  have h4 : (u32BeBytes (payload.length % 2 ^ 32)).length * bits.ratio ≤
      carrier.length := by
    rw [u32BeBytes_length]; omega
  obtain ⟨out1, hw1⟩ := stegWrite_ok bits _ carrier h4
  rw [u32BeBytes_length] at hw1
  have htake_len : (payload.take (payload.length % 2 ^ 32)).length =
      payload.length % 2 ^ 32 := List.length_take_of_le hnle
  have hmle : payload.length % 2 ^ 32 * bits.ratio ≤
      payload.length * bits.ratio := Nat.mul_le_mul_right _ hnle
  have hpa : (payload.take (payload.length % 2 ^ 32)).length * bits.ratio ≤
      (carrier.drop (4 * bits.ratio)).length := by
    rw [htake_len, List.length_drop]
    omega
  obtain ⟨o2a, hw2a⟩ := stegWrite_ok bits _ _ hpa
  have hpb : (payload.drop (payload.length % 2 ^ 32)).length * bits.ratio ≤
      ((carrier.drop (4 * bits.ratio)).drop
        ((payload.take (payload.length % 2 ^ 32)).length *
          bits.ratio)).length := by
    rw [List.length_drop, List.length_drop, List.length_drop, htake_len,
      Nat.sub_mul]
    omega
  obtain ⟨o2b, hw2b⟩ := stegWrite_ok bits _ _ hpb
  have hw2 : stegWrite bits payload (carrier.drop (4 * bits.ratio)) =
      .ok (o2a ++ o2b,
        ((carrier.drop (4 * bits.ratio)).drop
          ((payload.take (payload.length % 2 ^ 32)).length * bits.ratio)).drop
          ((payload.drop (payload.length % 2 ^ 32)).length * bits.ratio)) := by
    conv_lhs => rw [← List.take_append_drop (payload.length % 2 ^ 32) payload]
    rw [stegWrite_append]
    simp only [hw2a, hw2b]
  have hr1 : stegRead bits 4 (out1 ++ (o2a ++ o2b)) =
      .ok (u32BeBytes (payload.length % 2 ^ 32), o2a ++ o2b) := by
    have h := stegRead_stegWrite bits (u32BeBytes (payload.length % 2 ^ 32))
      carrier out1 _ (o2a ++ o2b) (u32BeBytes_mem_lt _) hw1
    rw [u32BeBytes_length] at h
    exact h
  have hr2 : stegRead bits (payload.take (payload.length % 2 ^ 32)).length
      (o2a ++ o2b) = .ok (payload.take (payload.length % 2 ^ 32), o2b) :=
    stegRead_stegWrite bits (payload.take (payload.length % 2 ^ 32)) _ o2a _
      o2b (fun x hx => hbytes x (List.take_subset _ _ hx)) hw2a
  rw [htake_len] at hr2
  simp only [hide_bytes, hw1, hw2]
  simp only [Except.bind]
  simp only [reveal_bytes, revealCore, hr1]
  rw [be32_u32BeBytes _ hmodlt]
  simp only [hr2]

/-- Claim C1, amended: the round trip holds for payloads of fewer than 2^32
bytes (the length prefix is the payload length cast to u32, so longer
payloads have their length truncated).  Payload entries are u8 values. -/
theorem C1_round_trip (bits : Bits) (payload carrier : List Nat)
    (hbytes : ∀ x ∈ payload, x < 256)
    (hlen : payload.length < 2 ^ 32)
    (hcar : (4 + payload.length) * bits.ratio ≤ carrier.length) :
    (hide_bytes payload carrier bits).bind
      (fun out => reveal_bytes out bits) = .ok payload := by
  have h := hide_reveal_take bits payload carrier hbytes hcar
  rw [Nat.mod_eq_of_lt hlen, List.take_length] at h
  exact h

theorem C1_round_trip_witness :
    (∀ x ∈ ([5, 14, 7, 3] : List Nat), x < 256) ∧
    ([5, 14, 7, 3] : List Nat).length < 2 ^ 32 ∧
    (4 + ([5, 14, 7, 3] : List Nat).length) * Bits.Four.ratio ≤
      (List.replicate 16 (224 : Nat)).length ∧
    (hide_bytes [5, 14, 7, 3] (List.replicate 16 224) Bits.Four).bind
      (fun out => reveal_bytes out Bits.Four) = .ok [5, 14, 7, 3] :=
  ⟨by decide, by decide, by decide,
   C1_round_trip Bits.Four [5, 14, 7, 3] (List.replicate 16 224) (by decide)
     (by decide) (by decide)⟩

/-- Claim C1 as frozen is false without a bound on the payload length: at a
payload of 2^32 zero bytes and an ample carrier, the written length prefix
is 2^32 mod 2^32 = 0, so revealing returns the empty payload, not the
original. -/
theorem C1_round_trip_counterexample :
    (hide_bytes (List.replicate (2 ^ 32) 0)
      (List.replicate ((4 + 2 ^ 32) * 2) 0) Bits.Four).bind
      (fun out => reveal_bytes out Bits.Four) ≠
      .ok (List.replicate (2 ^ 32) 0) := by
  have hplen : (List.replicate (2 ^ 32) (0 : Nat)).length = 2 ^ 32 :=
    List.length_replicate _ _
  have hbytes : ∀ x ∈ List.replicate (2 ^ 32) (0 : Nat), x < 256 := by
    intro x hx
    rw [List.eq_of_mem_replicate hx]
    norm_num
  have hcar : (4 + (List.replicate (2 ^ 32) (0 : Nat)).length) *
      Bits.Four.ratio ≤ (List.replicate ((4 + 2 ^ 32) * 2) (0 : Nat)).length := by
    rw [hplen, List.length_replicate, Bits.ratio_four]
  have hlhs := hide_reveal_take Bits.Four (List.replicate (2 ^ 32) 0)
    (List.replicate ((4 + 2 ^ 32) * 2) 0) hbytes hcar
  rw [hplen, Nat.mod_self, List.take_zero] at hlhs
  rw [hlhs]
  simp only [ne_eq, Except.ok.injEq]
  intro heq
  have hlen0 := congrArg List.length heq
  rw [List.length_nil, hplen] at hlen0
  norm_num at hlen0

/-- Claim C10: the length prefix is the payload length cast to u32, so a
payload of at least 2^32 bytes round-trips to only its first
len mod 2^32 bytes, never to itself. -/
theorem C10_length_truncation (bits : Bits) (payload carrier : List Nat)
    (hbytes : ∀ x ∈ payload, x < 256)
    (hlen : 2 ^ 32 ≤ payload.length)
    (hcar : (4 + payload.length) * bits.ratio ≤ carrier.length) :
    (hide_bytes payload carrier bits).bind
      (fun out => reveal_bytes out bits) =
      .ok (payload.take (payload.length % 2 ^ 32)) ∧
    payload.take (payload.length % 2 ^ 32) ≠ payload := by
  have hmodlt : payload.length % 2 ^ 32 < 2 ^ 32 := Nat.mod_lt _ (by norm_num)
  have hnle : payload.length % 2 ^ 32 ≤ payload.length := Nat.mod_le _ _
  have htake_len : (payload.take (payload.length % 2 ^ 32)).length =
      payload.length % 2 ^ 32 := List.length_take_of_le hnle
  refine ⟨hide_reveal_take bits payload carrier hbytes hcar, ?_⟩
  intro heq
  have hl := congrArg List.length heq
  rw [htake_len] at hl
  have : payload.length < 2 ^ 32 := hl ▸ hmodlt
  exact absurd hlen (Nat.not_le.mpr this)

theorem C10_length_truncation_witness :
    (∀ x ∈ List.replicate (2 ^ 32) (1 : Nat), x < 256) ∧
    2 ^ 32 ≤ (List.replicate (2 ^ 32) (1 : Nat)).length ∧
    (4 + (List.replicate (2 ^ 32) (1 : Nat)).length) * Bits.Four.ratio ≤
      (List.replicate ((4 + 2 ^ 32) * 2) (0 : Nat)).length ∧
    ((hide_bytes (List.replicate (2 ^ 32) 1)
        (List.replicate ((4 + 2 ^ 32) * 2) 0) Bits.Four).bind
      (fun out => reveal_bytes out Bits.Four) =
      .ok ((List.replicate (2 ^ 32) (1 : Nat)).take
        ((List.replicate (2 ^ 32) (1 : Nat)).length % 2 ^ 32)) ∧
      (List.replicate (2 ^ 32) (1 : Nat)).take
        ((List.replicate (2 ^ 32) (1 : Nat)).length % 2 ^ 32) ≠
        List.replicate (2 ^ 32) 1) := by
  have h1 : ∀ x ∈ List.replicate (2 ^ 32) (1 : Nat), x < 256 := by
    intro x hx
    rw [List.eq_of_mem_replicate hx]
    norm_num
  have h2 : 2 ^ 32 ≤ (List.replicate (2 ^ 32) (1 : Nat)).length := by
    rw [List.length_replicate]
  have h3 : (4 + (List.replicate (2 ^ 32) (1 : Nat)).length) * Bits.Four.ratio ≤
      (List.replicate ((4 + 2 ^ 32) * 2) (0 : Nat)).length := by
    rw [List.length_replicate, List.length_replicate, Bits.ratio_four]
  exact ⟨h1, h2, h3,
    C10_length_truncation Bits.Four (List.replicate (2 ^ 32) 1)
      (List.replicate ((4 + 2 ^ 32) * 2) 0) h1 h2 h3⟩

/-- Claim C2: for every payload byte, width, and the ratio template bytes
read for it, the i-th output byte of the writer equals
(template_i AND NOT mask) OR ((B >> (8 - W*(i+1))) AND mask); in particular
its bits above the mask agree with the template byte. -/
theorem C2_encoding_formula (bits : Bits) (pb : Nat)
    (carrier out rest : List Nat)
    (h : stegWrite bits [pb] carrier = .ok (out, rest)) :
    ∀ i, i < bits.ratio →
      out.getD i 0 =
        carrier.getD i 0 &&& (255 ^^^ bits.mask) |||
          (pb >>> (8 - bits.toNat * (i + 1))) &&& bits.mask ∧
      out.getD i 0 &&& (255 ^^^ bits.mask) =
        carrier.getD i 0 &&& (255 ^^^ bits.mask) := by
  by_cases hr : bits.ratio ≤ carrier.length
  · simp only [stegWrite, readExact_ok hr, Except.ok.injEq, Prod.mk.injEq,
      List.append_nil] at h
    obtain ⟨rfl, rfl⟩ := h
    have hcl : (carrier.take bits.ratio).length = bits.ratio :=
      List.length_take_of_le hr
    intro i hi
    have hgd : carrier.getD i 0 = (carrier.take bits.ratio).getD i 0 :=
      (getD_take hi).symm
    rw [hgd]
    cases bits with
    | One =>
      obtain ⟨t0, t1, t2, t3, t4, t5, t6, t7, hc⟩ := exists_len8 hcl
      rw [hc]
      rw [Bits.ratio_one] at hi
      interval_cases i <;> exact ⟨rfl, and_insert_notmask _ _ _⟩
    | Two =>
      obtain ⟨t0, t1, t2, t3, hc⟩ := exists_len4 hcl
      rw [hc]
      rw [Bits.ratio_two] at hi
      interval_cases i <;> exact ⟨rfl, and_insert_notmask _ _ _⟩
    | Four =>
      obtain ⟨t0, t1, hc⟩ := exists_len2 hcl
      rw [hc]
      rw [Bits.ratio_four] at hi
      interval_cases i <;> exact ⟨rfl, and_insert_notmask _ _ _⟩
  · rw [stegWrite, readExact_err (by omega)] at h
    cases h

theorem C2_encoding_formula_witness :
    stegWrite Bits.Four [5] [224, 224] = .ok ([224, 229], []) ∧
    1 < Bits.Four.ratio ∧
    (([224, 229] : List Nat).getD 1 0 =
      ([224, 224] : List Nat).getD 1 0 &&& (255 ^^^ Bits.Four.mask) |||
        (5 >>> (8 - Bits.Four.toNat * (1 + 1))) &&& Bits.Four.mask ∧
     ([224, 229] : List Nat).getD 1 0 &&& (255 ^^^ Bits.Four.mask) =
      ([224, 224] : List Nat).getD 1 0 &&& (255 ^^^ Bits.Four.mask)) :=
  ⟨by decide, by decide,
   C2_encoding_formula Bits.Four 5 [224, 224] [224, 229] [] (by decide) 1
     (by decide)⟩

/-- Claim C3: each output byte of the decoder is built from the ratio carrier
bytes read for it, first-read chunk in the most significant position:
B = sum of (C_i AND mask) << (8 - W*(i+1)). -/
theorem C3_decoding_formula (bits : Bits) :
    ∀ (n : Nat) (input out rest : List Nat),
      stegRead bits n input = .ok (out, rest) →
      ∀ j, j < n →
        out.getD j 0 =
          ((((input.drop (j * bits.ratio)).take bits.ratio).zip
            (List.range bits.ratio)).map
            (fun p => (p.1 &&& bits.mask) <<< (8 - bits.toNat * (p.2 + 1)))).sum := by
  intro n
  induction n with
  | zero => intro input out rest h j hj; omega
  | succ m ih =>
    intro input out rest h j hj
    by_cases hr : bits.ratio ≤ input.length
    · simp only [stegRead, readExact_ok hr] at h
      cases hs : stegRead bits m (input.drop bits.ratio) with
      | error e => rw [hs] at h; cases h
      | ok pr =>
        obtain ⟨out1, rest1⟩ := pr
        rw [hs] at h
        simp only [Except.ok.injEq, Prod.mk.injEq] at h
        obtain ⟨rfl, rfl⟩ := h
        cases j with
        | zero =>
          rw [List.getD_cons_zero, Nat.zero_mul, List.drop_zero]
          exact decodeByte_eq_sum bits _ (List.length_take_of_le hr)
        | succ k =>
          rw [List.getD_cons_succ]
          have hk : k < m := by omega
          rw [ih _ _ _ hs k hk, List.drop_drop,
            show bits.ratio + k * bits.ratio = (k + 1) * bits.ratio by ring]
    · rw [stegRead, readExact_err (by omega)] at h
      cases h

theorem C3_decoding_formula_witness :
    stegRead Bits.Two 4 [224, 227, 225, 226, 224, 225, 225, 227,
        224, 224, 225, 226, 225, 227, 227, 227] =
      .ok ([54, 23, 6, 127], []) ∧
    (1 : Nat) < 4 ∧
    ([54, 23, 6, 127] : List Nat).getD 1 0 =
      ((((([224, 227, 225, 226, 224, 225, 225, 227, 224, 224, 225, 226,
        225, 227, 227, 227] : List Nat).drop (1 * Bits.Two.ratio)).take
        Bits.Two.ratio).zip (List.range Bits.Two.ratio)).map
        (fun p => (p.1 &&& Bits.Two.mask) <<<
          (8 - Bits.Two.toNat * (p.2 + 1)))).sum :=
  ⟨by decide, by decide,
   C3_decoding_formula Bits.Two 4
     [224, 227, 225, 226, 224, 225, 225, 227,
      224, 224, 225, 226, 225, 227, 227, 227]
     [54, 23, 6, 127] [] (by decide) 1 (by decide)⟩

/-- Claim C4: a carrier (for encoding) or input stream (for decoding) with
fewer bytes than the operation requires makes hide_bytes / reveal_bytes fail
with the wrapped unexpected-EOF error, returning no partial result. -/
theorem C4_insufficient_carrier (bits : Bits) (payload carrier input : List Nat) :
    (carrier.length < (4 + payload.length) * bits.ratio →
      hide_bytes payload carrier bits = .error (.Wrapped .unexpectedEof)) ∧
    (input.length < (4 + revealSize input bits) * bits.ratio →
      reveal_bytes input bits = .error (.Wrapped .unexpectedEof)) := by
  constructor
  · intro h
    have hmul : (4 + payload.length) * bits.ratio =
        4 * bits.ratio + payload.length * bits.ratio := by ring
    rw [hmul] at h
    by_cases h4 : 4 * bits.ratio ≤ carrier.length
    · have h4l : (u32BeBytes (payload.length % 2 ^ 32)).length * bits.ratio ≤
          carrier.length := by
        rw [u32BeBytes_length]; exact h4
      obtain ⟨out1, hw1⟩ := stegWrite_ok bits _ carrier h4l
      rw [u32BeBytes_length] at hw1
      have herr : stegWrite bits payload (carrier.drop (4 * bits.ratio)) =
          .error .unexpectedEof := by
        apply stegWrite_err
        rw [List.length_drop]
        omega
      simp only [hide_bytes, hw1, herr]
    · have herr : stegWrite bits (u32BeBytes (payload.length % 2 ^ 32))
          carrier = .error .unexpectedEof := by
        apply stegWrite_err
        rw [u32BeBytes_length]
        omega
      simp only [hide_bytes, herr]
  · intro h
    by_cases h4 : 4 * bits.ratio ≤ input.length
    · obtain ⟨hdr, hh⟩ := stegRead_ok bits 4 input h4
      have hsz : revealSize input bits = be32 hdr := by
        rw [revealSize, hh]
      rw [hsz] at h
      have hmul : (4 + be32 hdr) * bits.ratio =
          4 * bits.ratio + be32 hdr * bits.ratio := by ring
      rw [hmul] at h
      have herr : stegRead bits (be32 hdr) (input.drop (4 * bits.ratio)) =
          .error .unexpectedEof := by
        apply stegRead_err
        rw [List.length_drop]
        omega
      simp only [reveal_bytes, revealCore, hh, herr]
    · have herr : stegRead bits 4 input = .error .unexpectedEof := by
        apply stegRead_err
        omega
      simp only [reveal_bytes, revealCore, herr]

theorem C4_insufficient_carrier_witness :
    hide_bytes [1] [0] Bits.Four = .error (.Wrapped .unexpectedEof) ∧
    reveal_bytes [0] Bits.Four = .error (.Wrapped .unexpectedEof) :=
  ⟨(C4_insufficient_carrier Bits.Four [1] [0] [0]).1 (by decide),
   (C4_insufficient_carrier Bits.Four [1] [0] [0]).2 (by decide)⟩

/-- Claim C7: a successful hide_bytes returns exactly (4 + N) * ratio bytes
for a payload of length N, and a successful reveal of a message with declared
length N consumes exactly (4 + N) * ratio input bytes. -/
theorem C7_framed_size (bits : Bits)
    (payload carrier input out p rest : List Nat) :
    (hide_bytes payload carrier bits = .ok out →
      out.length = (4 + payload.length) * bits.ratio) ∧
    (revealCore input bits = .ok (p, rest) →
      rest = input.drop ((4 + p.length) * bits.ratio) ∧
      (4 + p.length) * bits.ratio ≤ input.length) := by
  constructor
  · intro h
    cases hw1 : stegWrite bits (u32BeBytes (payload.length % 2 ^ 32)) carrier with
    | error e => simp only [hide_bytes, hw1] at h; cases h
    | ok pr1 =>
      obtain ⟨out1, c1⟩ := pr1
      simp only [hide_bytes, hw1] at h
      cases hw2 : stegWrite bits payload c1 with
      | error e => simp only [hw2] at h; cases h
      | ok pr2 =>
        obtain ⟨out2, c2⟩ := pr2
        simp only [hw2, Except.ok.injEq] at h
        obtain rfl := h.symm
        obtain ⟨hl1, _, _⟩ := stegWrite_ok_struct bits _ _ _ _ hw1
        obtain ⟨hl2, _, _⟩ := stegWrite_ok_struct bits _ _ _ _ hw2
        rw [u32BeBytes_length] at hl1
        rw [List.length_append, hl1, hl2]
        ring
  · intro h
    cases hh : stegRead bits 4 input with
    | error e => simp only [revealCore, hh] at h; cases h
    | ok pr1 =>
      obtain ⟨hdr, input1⟩ := pr1
      simp only [revealCore, hh] at h
      cases hp : stegRead bits (be32 hdr) input1 with
      | error e => simp only [hp] at h; cases h
      | ok pr2 =>
        obtain ⟨p0, input2⟩ := pr2
        simp only [hp, Except.ok.injEq, Prod.mk.injEq] at h
        obtain ⟨rfl, rfl⟩ := h
        obtain ⟨hl1, hr1, hle1⟩ := stegRead_ok_struct bits 4 input _ _ hh
        obtain ⟨hl2, hr2, hle2⟩ := stegRead_ok_struct bits (be32 hdr) input1 _ _ hp
        constructor
        · rw [hr2, hr1, List.drop_drop]
          congr 1
          rw [hl2]
          ring
        · rw [hr1, List.length_drop] at hle2
          rw [show (4 + p0.length) * bits.ratio =
            4 * bits.ratio + p0.length * bits.ratio by ring, hl2]
          omega

theorem C7_framed_size_witness :
    ([224, 224, 224, 224, 224, 224, 224, 228, 224, 229, 224, 238,
      224, 231, 224, 227] : List Nat).length =
      (4 + ([5, 14, 7, 3] : List Nat).length) * Bits.Four.ratio ∧
    ([] : List Nat) =
      ([224, 224, 224, 224, 224, 224, 224, 228, 224, 229, 224, 238,
        224, 231, 224, 227] : List Nat).drop
        ((4 + ([5, 14, 7, 3] : List Nat).length) * Bits.Four.ratio) ∧
    (4 + ([5, 14, 7, 3] : List Nat).length) * Bits.Four.ratio ≤
      ([224, 224, 224, 224, 224, 224, 224, 228, 224, 229, 224, 238,
        224, 231, 224, 227] : List Nat).length := by
  have h := C7_framed_size Bits.Four [5, 14, 7, 3] (List.replicate 16 224)
    [224, 224, 224, 224, 224, 224, 224, 228, 224, 229, 224, 238,
     224, 231, 224, 227]
    [224, 224, 224, 224, 224, 224, 224, 228, 224, 229, 224, 238,
     224, 231, 224, 227]
    [5, 14, 7, 3] []
  exact ⟨h.1 (by decide), (h.2 (by decide)).1, (h.2 (by decide)).2⟩

/-- Claim C5: constructing a Bits value from a raw byte succeeds exactly for
1, 2 and 4, and any other value v fails with the invalid-bit-width error
carrying v. -/
theorem C5_bit_width_parsing (v : Nat) :
    ((∃ b, Bits.tryFrom v = .ok b) ↔ v = 1 ∨ v = 2 ∨ v = 4) ∧
    (v ≠ 1 → v ≠ 2 → v ≠ 4 → Bits.tryFrom v = .error (.WrongBits v)) := by
  constructor
  · constructor
    · rintro ⟨b, hb⟩
      by_cases h1 : v = 1
      · exact Or.inl h1
      by_cases h2 : v = 2
      · exact Or.inr (Or.inl h2)
      by_cases h4 : v = 4
      · exact Or.inr (Or.inr h4)
      rw [Bits.tryFrom, if_neg h1, if_neg h2, if_neg h4] at hb
      cases hb
    · rintro (rfl | rfl | rfl)
      exacts [⟨.One, rfl⟩, ⟨.Two, rfl⟩, ⟨.Four, rfl⟩]
  · intro h1 h2 h4
    rw [Bits.tryFrom, if_neg h1, if_neg h2, if_neg h4]

theorem C5_bit_width_parsing_witness :
    Bits.tryFrom 3 = .error (.WrongBits 3) ∧
    (∃ b, Bits.tryFrom 2 = .ok b) :=
  ⟨(C5_bit_width_parsing 3).2 (by decide) (by decide) (by decide),
   (C5_bit_width_parsing 2).1.mpr (Or.inr (Or.inl rfl))⟩

/-- Claim C6: mask() returns (1 << width) - 1 and ratio() returns 8 / width;
concretely W=1 gives mask 1 and ratio 8, W=2 gives mask 3 and ratio 4, W=4
gives mask 15 and ratio 2. -/
theorem C6_mask_ratio_table :
    (∀ b : Bits, b.mask = (1 <<< b.toNat) - 1 ∧ b.ratio = 8 / b.toNat) ∧
    Bits.One.mask = 0b00000001 ∧ Bits.One.ratio = 8 ∧
    Bits.Two.mask = 0b00000011 ∧ Bits.Two.ratio = 4 ∧
    Bits.Four.mask = 0b00001111 ∧ Bits.Four.ratio = 2 :=
  ⟨fun b => ⟨rfl, rfl⟩, rfl, rfl, rfl, rfl, rfl, rfl⟩

/-- Claim C8: the capacity passed to Vec::with_capacity on line 42 of
src/binary.rs is 4 + len * ratio, not the (4 + len) * ratio the output needs:
for the empty payload at width Four the buffer is created with capacity 4
while the encoder writes 8 bytes into it, so the pre-sizing does not avoid
reallocation. -/
theorem C8_capacity_formula :
    hideBytesCapacity 0 Bits.Four = 4 ∧
    (4 + 0) * Bits.Four.ratio = 8 ∧
    hideBytesCapacity 0 Bits.Four < (4 + 0) * Bits.Four.ratio ∧
    (∃ out, hide_bytes [] (List.replicate 8 0) Bits.Four = .ok out ∧
      out.length = 8) :=
  ⟨rfl, rfl, by decide, ⟨[0, 0, 0, 0, 0, 0, 0, 0], by decide, rfl⟩⟩

/-- Claim C9: hide_bytes on payload [5,14,7,3] with a 16-byte carrier of
0xE0 bytes at width Four returns the documented 16-byte output. -/
theorem C9_literal_scenario :
    hide_bytes [5, 14, 7, 3] (List.replicate 16 224) Bits.Four =
      .ok [0xE0, 0xE0, 0xE0, 0xE0, 0xE0, 0xE0, 0xE0, 0xE4,
           0xE0, 0xE5, 0xE0, 0xEE, 0xE0, 0xE7, 0xE0, 0xE3] := by
  decide
